import Mathlib

set_option maxHeartbeats 1000000

/-!
Shallow embedding of the raffle spin engine from `src/src/app.rs`.

Floating point (`f32`) is modelled by `ℚ`; `position.floor() as usize`
is modelled by `Int.toNat ∘ Int.floor` (the Rust `as usize` cast of a
non-negative float saturates at 0 for negatives, which `Int.toNat` matches).
The random draw in `start_spin` (`rng.gen_range(min..max)`) is modelled by
an explicit parameter `decay`; the contract of `gen_range` on the half-open
range is the hypothesis `decay ∈ Set.Ico min max` in the theorems.
The participant file loaded in `App::default` is an external collaborator,
so `App.default` takes the loaded list as a parameter.
-/

/-- A raffle participant (crate `data::Participant`): a display name plus a
mutable winner flag. -/
structure Participant where
  name : String
  is_winner : Bool
  deriving Repr, DecidableEq

/-- Model of `ratatui::widgets::ListState`: only the optional selected index
is relevant to the engine. -/
structure ListState where
  selected : Option Nat
  deriving Repr, DecidableEq

/-- `ListState::default()`: nothing selected. -/
def ListState.default : ListState := ⟨none⟩

/-- `StatefulList<T>` from `app.rs`: an owned ordered collection together
with a `ListState` holding the optional selected index. -/
structure StatefulList (T : Type) where
  state : ListState
  items : List T
  deriving Repr, DecidableEq

namespace StatefulList

variable {T : Type}

/-- `StatefulList::new(items)`. -/
def new (items : List T) : StatefulList T :=
  { state := ListState.default, items := items }

/-- `StatefulList::next(increment)`: no-op when empty; otherwise select
`(current + increment) % len`, or index 0 when nothing was selected. -/
def next (l : StatefulList T) (increment : Nat) : StatefulList T :=
  if l.items.isEmpty then l
  else
    let i : Nat :=
      match l.state.selected with
      | some i => (i + increment) % l.items.length
      | none => 0
    { l with state := ⟨some i⟩ }

/-- `StatefulList::previous()`: no-op when empty; otherwise move one back,
wrapping from 0 to `len - 1`, or select index 0 when nothing was selected. -/
def previous (l : StatefulList T) : StatefulList T :=
  if l.items.isEmpty then l
  else
    let i : Nat :=
      match l.state.selected with
      | some i => if i = 0 then l.items.length - 1 else i - 1
      | none => 0
    { l with state := ⟨some i⟩ }

/-- `StatefulList::unselect()`. -/
def unselect (l : StatefulList T) : StatefulList T :=
  { l with state := ⟨none⟩ }

/-- `StatefulList::get_selected()`: a clone of the item at the selected
index, or `none` when nothing is selected.  The Rust code indexes
`self.items[index]`, which panics out of bounds; the partiality is made
explicit with `List.get?`, and the in-bounds invariant is proved below. -/
def get_selected (l : StatefulList T) : Option T :=
  match l.state.selected with
  | some index => l.items.get? index
  | none => none

/-- `StatefulList::remove()`: no-op when empty or nothing selected;
otherwise remove the item at the selected index and clear the selection. -/
def remove (l : StatefulList T) : StatefulList T :=
  if l.items.isEmpty then l
  else
    match l.state.selected with
    | some i => { state := ⟨none⟩, items := l.items.eraseIdx i }
    | none => l

end StatefulList

/-- `StatefulTabs` from `app.rs` (peripheral, carried for state
completeness). -/
structure StatefulTabs where
  titles : List String
  active : Nat
  deriving Repr, DecidableEq

/-- `StatefulTabs::new(titles)`. -/
def StatefulTabs.new (titles : List String) : StatefulTabs :=
  { titles := titles, active := 0 }

/-- The application state (`struct App`). -/
structure App where
  running : Bool
  tabs : StatefulTabs
  all_participants : StatefulList Participant
  all_winners : List Participant
  is_spinning : Bool
  position : ℚ
  speed : ℚ
  acceleration : ℚ
  spin_winner : Option Participant
  deriving Repr, DecidableEq

namespace App

/-- `App::default()`, with the externally loaded participant file passed in
as `participants`. -/
def default (participants : List Participant) : App :=
  { running := true
    tabs := StatefulTabs.new ["Home", "Participants"]
    all_participants := StatefulList.new participants
    all_winners := []
    is_spinning := false
    position := 0
    speed := 0
    acceleration := 0
    spin_winner := none }

/-- `App::start_spin()`, with the value drawn by
`rng.gen_range(min_acceleration..max_acceleration)` passed in as `decay`. -/
def start_spin (a : App) (decay : ℚ) : App :=
  if a.all_participants.items.isEmpty then a
  else
    { a with
      acceleration := decay
      position := 0
      speed := 3.0
      spin_winner := none
      is_spinning := true }

/-- The half-open interval `start_spin` draws its decay value from:
`min_acceleration = 0.5 / participant_count`,
`max_acceleration = 0.9 / participant_count`. -/
def accelerationRange (participant_count : ℚ) : Set ℚ :=
  Set.Ico (0.5 / participant_count) (0.9 / participant_count)

/-- `App::apply_acceleration()`: one kinematic step. -/
def apply_acceleration (a : App) : App :=
  let position := a.position + a.speed
  let i : Nat := (Int.floor position).toNat
  { a with
    all_participants := a.all_participants.next i
    position := position - (i : ℚ)
    speed := a.speed * (1.0 - a.acceleration) }

/-- `App::spin_round()`: no-op when idle; one kinematic step while
`speed > 0.1`; otherwise finalize the spin if a participant is selected.
Note the Rust finalizer mutates `is_winner` on the clone returned by
`get_selected`, not on the list entry. -/
def spin_round (a : App) : App :=
  if ¬a.is_spinning then a
  else if a.speed > 0.1 then a.apply_acceleration
  else
    match a.all_participants.get_selected with
    | some winner0 =>
        let winner : Participant := { winner0 with is_winner := true }
        { a with
          spin_winner := some winner
          all_winners := a.all_winners ++ [winner]
          is_spinning := false }
    | none => a

/-- `App::tick()`. -/
def tick (a : App) : App := a.spin_round

/-- `App::stop_spin()`. -/
def stop_spin (a : App) : App := { a with is_spinning := false }

/-- `App::reset_spin()`. -/
def reset_spin (a : App) : App :=
  { a.stop_spin with speed := 0, spin_winner := none }

end App

/-! ### Branch lemmas for `spin_round` / `tick` -/

/-- When idle, `tick` is a no-op (first guard of `spin_round`). -/
theorem App.tick_not_spinning (a : App) (h : a.is_spinning = false) :
    a.tick = a := by
  simp [App.tick, App.spin_round, h]

/-- While spinning fast, `tick` is exactly `apply_acceleration`. -/
theorem App.tick_fast (a : App) (hspin : a.is_spinning = true)
    (hfast : a.speed > 0.1) : a.tick = a.apply_acceleration := by
  simp [App.tick, App.spin_round, hspin, hfast]

/-- The finalize branch with a selected participant. -/
theorem App.tick_finalize (a : App) (p : Participant)
    (hspin : a.is_spinning = true) (hslow : ¬a.speed > 0.1)
    (hsel : a.all_participants.get_selected = some p) :
    a.tick =
      { a with
        spin_winner := some { p with is_winner := true }
        all_winners := a.all_winners ++ [{ p with is_winner := true }]
        is_spinning := false } := by
  simp [App.tick, App.spin_round, hspin, hslow, hsel]

/-- The finalize branch with nothing selected: complete no-op. -/
theorem App.tick_finalize_none (a : App)
    (hspin : a.is_spinning = true) (hslow : ¬a.speed > 0.1)
    (hsel : a.all_participants.get_selected = none) :
    a.tick = a := by
  simp [App.tick, App.spin_round, hspin, hslow, hsel]

/-- `tick` never changes the decay constant. -/
theorem App.tick_acceleration (a : App) :
    (a.tick).acceleration = a.acceleration := by
  unfold App.tick App.spin_round App.apply_acceleration
  rcases h : a.all_participants.get_selected with _ | p <;>
    by_cases h1 : a.is_spinning <;> by_cases h2 : a.speed > 0.1 <;> simp [h, h1, h2]

/-- `tick` never changes the participant items (only the cursor moves). -/
theorem App.tick_items (a : App) :
    (a.tick).all_participants.items = a.all_participants.items := by
  unfold App.tick App.spin_round App.apply_acceleration StatefulList.next
  rcases h : a.all_participants.get_selected with _ | p <;>
    by_cases h1 : a.is_spinning <;> by_cases h2 : a.speed > 0.1 <;>
    by_cases h3 : a.all_participants.items.isEmpty <;>
    simp [h, h1, h2, h3]

/-- `next` on a non-empty list always selects an in-bounds index. -/
theorem StatefulList.next_selects {T : Type} (l : StatefulList T) (k : Nat)
    (hne : l.items ≠ []) :
    ∃ i, (l.next k).state.selected = some i ∧ i < l.items.length := by
  have hlen : 0 < l.items.length := List.length_pos.mpr hne
  have hemp : l.items.isEmpty = false := by
    simp [List.isEmpty_iff, hne]
  unfold StatefulList.next
  rcases h : l.state.selected with _ | i <;>
    simp [hemp, h, Nat.mod_lt, hlen]

/-! ### Concrete states used by witnesses and counterexamples -/

def pA : Participant := ⟨"Alice", false⟩
def pB : Participant := ⟨"Bob", false⟩
def pC : Participant := ⟨"Carol", false⟩

/-- A spin about to finalize: spinning, slow, index 0 of `[pA]` selected. -/
def finalizingApp : App :=
  { running := true
    tabs := StatefulTabs.new ["Home", "Participants"]
    all_participants := ⟨⟨some 0⟩, [pA]⟩
    all_winners := []
    is_spinning := true
    position := 0.3
    speed := 0.08
    acceleration := 0.6
    spin_winner := none }

/-- A spin in full flight over three participants. -/
def midSpinApp : App :=
  { running := true
    tabs := StatefulTabs.new ["Home", "Participants"]
    all_participants := ⟨⟨some 0⟩, [pA, pB, pC]⟩
    all_winners := []
    is_spinning := true
    position := 0.4
    speed := 2.5
    acceleration := 0.2
    spin_winner := none }

/-- A spinning engine whose participant list was emptied mid-spin. -/
def emptySpinningApp : App :=
  { running := true
    tabs := StatefulTabs.new ["Home", "Participants"]
    all_participants := ⟨⟨none⟩, []⟩
    all_winners := []
    is_spinning := true
    position := 0.3
    speed := 0.05
    acceleration := 0.7
    spin_winner := none }

/-! ### Claims -/

/-- Claim C5: `advance(k)` (`StatefulList::next`) on an empty list is a
no-op; on a non-empty list with no prior selection it selects index 0
regardless of `k`; otherwise it sets the selected index to
`(current + k) mod length`; it never fails (it is a total function and
leaves the items untouched). -/
theorem next_advance_spec {T : Type} (l : StatefulList T) (k : Nat) :
    (l.items = [] → l.next k = l) ∧
    (l.items ≠ [] → l.state.selected = none →
      (l.next k).state.selected = some 0) ∧
    (∀ i, l.items ≠ [] → l.state.selected = some i →
      (l.next k).state.selected = some ((i + k) % l.items.length)) ∧
    (l.next k).items = l.items := by
  unfold StatefulList.next
  by_cases hemp : l.items.isEmpty <;>
    rcases h : l.state.selected with _ | i <;>
    simp_all [List.isEmpty_iff]

/-- Witness for C5 on the list `[pA, pB, pC]` with index 1 selected. -/
theorem next_advance_spec_witness :
    ((⟨⟨some 1⟩, [pA, pB, pC]⟩ : StatefulList Participant).next 4).state.selected
      = some ((1 + 4) % [pA, pB, pC].length) :=
  (next_advance_spec ⟨⟨some 1⟩, [pA, pB, pC]⟩ 4).2.2.1 1 (by simp) rfl

/-- Claim C4: on a non-empty list of `n` participants, for every value the
uniform draw may produce (i.e. every `decay` in the half-open range
`[0.5/n, 0.9/n)` that `gen_range` contracts to return), `start_spin` sets
`acceleration` strictly inside `[0.5/n, 0.9/n)` and sets `position = 0`,
`speed = 3.0`, `spin_winner = none`, `is_spinning = true`. -/
theorem start_spin_initializes (a : App) (decay : ℚ)
    (hne : a.all_participants.items ≠ [])
    (hd : decay ∈ App.accelerationRange (a.all_participants.items.length : ℚ)) :
    0.5 / (a.all_participants.items.length : ℚ) ≤ (a.start_spin decay).acceleration ∧
    (a.start_spin decay).acceleration < 0.9 / (a.all_participants.items.length : ℚ) ∧
    (a.start_spin decay).position = 0 ∧
    (a.start_spin decay).speed = 3.0 ∧
    (a.start_spin decay).spin_winner = none ∧
    (a.start_spin decay).is_spinning = true := by
  have hemp : a.all_participants.items.isEmpty = false := by
    simp [List.isEmpty_iff, hne]
  obtain ⟨hlo, hhi⟩ := hd
  simp_all [App.start_spin, App.accelerationRange, hemp]

/-- Witness for C4: three participants, `decay = 0.2 ∈ [0.5/3, 0.9/3)`. -/
theorem start_spin_initializes_witness :
    (0.5 : ℚ) / (([pA, pB, pC] : List Participant).length : ℚ)
        ≤ ((App.default [pA, pB, pC]).start_spin 0.2).acceleration ∧
      ((App.default [pA, pB, pC]).start_spin 0.2).is_spinning = true :=
  have h := start_spin_initializes (App.default [pA, pB, pC]) 0.2
    (by simp [App.default, StatefulList.new])
    (by constructor <;> norm_num [App.default, StatefulList.new])
  ⟨h.1, h.2.2.2.2.2⟩

/-- Claim C8, counterexample: on a reachable state whose participant list
was emptied mid-spin, `start_spin` leaves the whole state unchanged — so
`is_spinning` is still `true` afterwards, not `false` as the claim states. -/
theorem start_spin_empty_counterexample :
    emptySpinningApp.all_participants.items = [] ∧
    emptySpinningApp.start_spin 0.7 = emptySpinningApp ∧
    (emptySpinningApp.start_spin 0.7).is_spinning = true := by
  refine ⟨rfl, ?_, ?_⟩ <;> simp [App.start_spin, emptySpinningApp]

/-- Claim C8 (amended): on an empty participant list `start_spin` is a pure
no-op — the whole engine state is unchanged, so `is_spinning` keeps its
prior value (in particular it stays `false` whenever it was `false`). -/
theorem start_spin_empty_noop (a : App) (decay : ℚ)
    (he : a.all_participants.items = []) :
    a.start_spin decay = a ∧
    (a.start_spin decay).is_spinning = a.is_spinning := by
  have hemp : a.all_participants.items.isEmpty = true := by
    simp [List.isEmpty_iff, he]
  constructor <;> simp [App.start_spin, hemp]

/-- Witness for the amended C8: a freshly constructed engine with an empty
participant file stays idle when `start_spin` is invoked. -/
theorem start_spin_empty_noop_witness :
    (App.default []).start_spin 0.7 = App.default [] :=
  (start_spin_empty_noop (App.default []) 0.7
    (by simp [App.default, StatefulList.new])).1

/-- Claim C9: if `tick` reaches the finalize branch (spinning, speed at or
below 0.1) while no participant is selected, it changes no state, never
crashes, and leaves the engine spinning. -/
theorem finalize_no_selection_noop (a : App)
    (hspin : a.is_spinning = true) (hslow : ¬a.speed > 0.1)
    (hsel : a.all_participants.state.selected = none) :
    a.tick = a ∧ (a.tick).is_spinning = true := by
  have hget : a.all_participants.get_selected = none := by
    simp [StatefulList.get_selected, hsel]
  have h := App.tick_finalize_none a hspin hslow hget
  exact ⟨h, by rw [h, hspin]⟩

/-- Witness for C9 on the emptied-mid-spin state. -/
theorem finalize_no_selection_noop_witness :
    emptySpinningApp.tick = emptySpinningApp ∧
    (emptySpinningApp.tick).is_spinning = true :=
  finalize_no_selection_noop emptySpinningApp rfl
    (by norm_num [emptySpinningApp]) rfl

/-- Claim C1, counterexample: a finalizing tick on the one-element list
`[pA]` (with `pA` not yet a winner) leaves the list entry's `is_winner`
flag `false` — the flag is set only on the clone stored in `spin_winner`
and `winner_history`, because `get_selected` returns a clone and the Rust
code mutates that temporary. -/
theorem winner_flag_counterexample :
    finalizingApp.is_spinning = true ∧
    finalizingApp.speed ≤ 0.1 ∧
    finalizingApp.all_participants.get_selected = some pA ∧
    (finalizingApp.tick).is_spinning = false ∧
    (finalizingApp.tick).spin_winner = some { pA with is_winner := true } ∧
    (finalizingApp.tick).all_participants.items = [pA] ∧
    pA.is_winner = false := by
  have hslow : ¬finalizingApp.speed > 0.1 := by norm_num [finalizingApp]
  have h := App.tick_finalize finalizingApp pA rfl hslow rfl
  refine ⟨rfl, by norm_num [finalizingApp], rfl, ?_, ?_, ?_, rfl⟩ <;>
    simp [h, show finalizingApp.all_participants.items = [pA] from rfl]

/-- Claim C1 (amended): when `tick` finalizes a spin, the `is_winner` flag
is set to `true` only on the cloned copy placed in `spin_winner` and
appended to `winner_history`; the participant list — including the selected
entry — is left completely unchanged, so the winner stays in the pool but
its pool entry is NOT flagged. -/
theorem finalize_flags_copies_only (a : App) (p : Participant)
    (hspin : a.is_spinning = true) (hslow : ¬a.speed > 0.1)
    (hsel : a.all_participants.get_selected = some p) :
    (a.tick).spin_winner = some { p with is_winner := true } ∧
    (a.tick).all_winners = a.all_winners ++ [{ p with is_winner := true }] ∧
    (a.tick).all_participants = a.all_participants ∧
    (a.tick).is_spinning = false := by
  rw [App.tick_finalize a p hspin hslow hsel]
  exact ⟨rfl, rfl, rfl, rfl⟩

/-- Witness for the amended C1 at the finalizing state over `[pA]`. -/
theorem finalize_flags_copies_only_witness :
    (finalizingApp.tick).spin_winner = some { pA with is_winner := true } ∧
    (finalizingApp.tick).all_participants = finalizingApp.all_participants :=
  have h := finalize_flags_copies_only finalizingApp pA rfl
    (by norm_num [finalizingApp]) rfl
  ⟨h.1, h.2.2.1⟩

/-- Claim C2: while spinning with `speed > 0.1`, `tick` performs exactly one
kinematic step and nothing else: `position += speed`; `whole` is the floor
of the new position taken as a non-negative integer; the circular selection
advances by `whole`; `position -= whole` keeps only the fractional
remainder; `speed *= (1 - acceleration)`; every other field (spinning flag,
decay, winner slot, history, tabs, running flag) is untouched. -/
theorem tick_kinematic_step (a : App)
    (hspin : a.is_spinning = true) (hfast : a.speed > 0.1) :
    (a.tick).position
        = (a.position + a.speed) - ((Int.floor (a.position + a.speed)).toNat : ℚ) ∧
    (a.tick).all_participants
        = a.all_participants.next (Int.floor (a.position + a.speed)).toNat ∧
    (a.tick).speed = a.speed * (1 - a.acceleration) ∧
    (a.tick).is_spinning = a.is_spinning ∧
    (a.tick).acceleration = a.acceleration ∧
    (a.tick).spin_winner = a.spin_winner ∧
    (a.tick).all_winners = a.all_winners ∧
    (a.tick).running = a.running ∧
    (a.tick).tabs = a.tabs := by
  rw [App.tick_fast a hspin hfast]
  unfold App.apply_acceleration
  norm_num

/-- Witness for C2 on a concrete mid-spin state
(`position = 0.4`, `speed = 2.5`, so `whole = ⌊2.9⌋ = 2`). -/
theorem tick_kinematic_step_witness :
    (midSpinApp.tick).speed = midSpinApp.speed * (1 - midSpinApp.acceleration) ∧
    (midSpinApp.tick).all_participants
      = midSpinApp.all_participants.next
          (Int.floor (midSpinApp.position + midSpinApp.speed)).toNat :=
  have h := tick_kinematic_step midSpinApp rfl (by norm_num [midSpinApp])
  ⟨h.2.2.1, h.2.1⟩

/-- Claim C6: a finalizing `tick` grows `winner_history` (`all_winners`) by
exactly one entry, whose winner flag is `true` and which equals the value
stored in `spin_winner`; and `winner_history` is append-only: `tick` only
ever appends, and `start_spin`, `stop_spin`, `reset_spin` and any update of
the participant list (navigation / removal) leave it untouched. -/
theorem winner_history_append_only (a : App) (p : Participant) (decay : ℚ) :
    (a.is_spinning = true → ¬a.speed > 0.1 →
      a.all_participants.get_selected = some p →
      (a.tick).all_winners = a.all_winners ++ [{ p with is_winner := true }] ∧
      (a.tick).all_winners.length = a.all_winners.length + 1 ∧
      (a.tick).all_winners.getLast? = some { p with is_winner := true } ∧
      (a.tick).spin_winner = some { p with is_winner := true }) ∧
    (∃ t, (a.tick).all_winners = a.all_winners ++ t) ∧
    (a.start_spin decay).all_winners = a.all_winners ∧
    a.stop_spin.all_winners = a.all_winners ∧
    a.reset_spin.all_winners = a.all_winners ∧
    (∀ l, ({ a with all_participants := l } : App).all_winners
      = a.all_winners) := by
  refine ⟨?_, ?_, ?_, rfl, rfl, fun l => rfl⟩
  · intro hspin hslow hsel
    rw [App.tick_finalize a p hspin hslow hsel]
    simp
  · by_cases hspin : a.is_spinning
    · by_cases hfast : a.speed > 0.1
      · exact ⟨[], by rw [App.tick_fast a hspin hfast]; simp [App.apply_acceleration]⟩
      · rcases hsel : a.all_participants.get_selected with _ | p0
        · exact ⟨[], by rw [App.tick_finalize_none a hspin hfast hsel]; simp⟩
        · exact ⟨[{ p0 with is_winner := true }],
            by rw [App.tick_finalize a p0 hspin hfast hsel]⟩
    · exact ⟨[], by rw [App.tick_not_spinning a (by simpa using hspin)]; simp⟩
  · unfold App.start_spin
    by_cases hemp : a.all_participants.items.isEmpty <;> simp [hemp]

/-- Witness for C6 at the finalizing state over `[pA]`. -/
theorem winner_history_append_only_witness :
    (finalizingApp.tick).all_winners.length
        = finalizingApp.all_winners.length + 1 ∧
      (finalizingApp.tick).all_winners.getLast?
        = some { pA with is_winner := true } :=
  have h := (winner_history_append_only finalizingApp pA 0.2).1 rfl
    (by norm_num [finalizingApp]) rfl
  ⟨h.2.1, h.2.2.1⟩

/-! ### Reachability and the selection invariant (C7) -/

/-- States of a `StatefulList` reachable from construction by the mutating
operations `advance`/`next`, `retreat`/`previous`,
`clear_selection`/`unselect` and `remove_selected`/`remove`
(`selected`/`get_selected` is a pure query and mutates nothing). -/
inductive ReachableList {T : Type} : StatefulList T → Prop where
  | new (items : List T) : ReachableList (StatefulList.new items)
  | next {l : StatefulList T} (k : Nat) :
      ReachableList l → ReachableList (l.next k)
  | previous {l : StatefulList T} :
      ReachableList l → ReachableList l.previous
  | unselect {l : StatefulList T} :
      ReachableList l → ReachableList l.unselect
  | remove {l : StatefulList T} :
      ReachableList l → ReachableList l.remove

/-- The documented invariant of `StatefulList`: an empty list has no
selection, and a present selected index is in bounds. -/
def SelectionInv {T : Type} (l : StatefulList T) : Prop :=
  (l.items = [] → l.state.selected = none) ∧
  ∀ i, l.state.selected = some i → i < l.items.length

theorem selectionInv_new {T : Type} (items : List T) :
    SelectionInv (StatefulList.new items) := by
  constructor <;> simp [StatefulList.new, ListState.default]

theorem selectionInv_next {T : Type} {l : StatefulList T} (k : Nat)
    (h : SelectionInv l) : SelectionInv (l.next k) := by
  unfold StatefulList.next
  by_cases hemp : l.items.isEmpty
  · simpa [hemp] using h
  · have hlen : 0 < l.items.length := by
      simp [List.isEmpty_iff] at hemp
      exact List.length_pos.mpr hemp
    rcases hsel : l.state.selected with _ | i <;>
      exact ⟨by simp_all, by simp_all [Nat.mod_lt, hlen]⟩

theorem selectionInv_previous {T : Type} {l : StatefulList T}
    (h : SelectionInv l) : SelectionInv l.previous := by
  unfold StatefulList.previous
  by_cases hemp : l.items.isEmpty
  · simpa [hemp] using h
  · have hlen : 0 < l.items.length := by
      simp [List.isEmpty_iff] at hemp
      exact List.length_pos.mpr hemp
    rcases hsel : l.state.selected with _ | i
    · exact ⟨by simp_all, by simp_all⟩
    · have hi : i < l.items.length := h.2 i hsel
      refine ⟨by simp_all, ?_⟩
      intro j hj
      simp only [hemp, if_false, hsel] at hj ⊢
      obtain rfl : (if i = 0 then l.items.length - 1 else i - 1) = j := by
        simpa using hj
      show (if i = 0 then l.items.length - 1 else i - 1) < l.items.length
      split_ifs <;> omega

theorem selectionInv_unselect {T : Type} {l : StatefulList T}
    (_h : SelectionInv l) : SelectionInv l.unselect := by
  constructor <;> simp [StatefulList.unselect]

theorem selectionInv_remove {T : Type} {l : StatefulList T}
    (h : SelectionInv l) : SelectionInv l.remove := by
  unfold StatefulList.remove
  by_cases hemp : l.items.isEmpty
  · simpa [hemp] using h
  · rcases hsel : l.state.selected with _ | i
    · simpa [hemp, hsel] using h
    · constructor <;> simp [hemp, hsel]

/-- From the invariant, `get_selected` performs an in-bounds access. -/
theorem get_selected_of_inv {T : Type} {l : StatefulList T}
    (h : SelectionInv l) (i : Nat) (hsel : l.state.selected = some i) :
    ∃ hi : i < l.items.length,
      l.get_selected = some (l.items.get ⟨i, hi⟩) := by
  have hi : i < l.items.length := h.2 i hsel
  exact ⟨hi, by simp [StatefulList.get_selected, hsel, List.get?_eq_get hi]⟩

/-- Claim C7: every `StatefulList` state reachable from construction by
`advance`, `retreat`, `clear_selection`, `selected` and `remove_selected`
satisfies the invariant — an empty list has no selection, and a present
selected index `i` satisfies `i < length` — so `selected()`'s element
access is always in bounds and never fails. -/
theorem statefulList_selection_invariant {T : Type} (l : StatefulList T)
    (h : ReachableList l) :
    SelectionInv l ∧
    ∀ i, l.state.selected = some i →
      ∃ hi : i < l.items.length,
        l.get_selected = some (l.items.get ⟨i, hi⟩) := by
  have hinv : SelectionInv l := by
    induction h with
    | new items => exact selectionInv_new items
    | next k _ ih => exact selectionInv_next k ih
    | previous _ ih => exact selectionInv_previous ih
    | unselect _ ih => exact selectionInv_unselect ih
    | remove _ ih => exact selectionInv_remove ih
  exact ⟨hinv, get_selected_of_inv hinv⟩

/-- Witness for C7: the state reached by `new [pA, pB] |> advance 3`
satisfies the invariant and its access is in bounds. -/
theorem statefulList_selection_invariant_witness :
    SelectionInv ((StatefulList.new [pA, pB]).next 3) :=
  (statefulList_selection_invariant _
    (ReachableList.next 3 (ReachableList.new [pA, pB]))).1

/-! ### The spin-winner / history coupling (C10) -/

/-- The unstated invariant of C10: whenever `spin_winner` holds a value,
`winner_history` is non-empty, its last entry equals that value, and the
value carries `is_winner = true`. -/
def WinnerInv (a : App) : Prop :=
  ∀ v, a.spin_winner = some v →
    a.all_winners ≠ [] ∧ a.all_winners.getLast? = some v ∧ v.is_winner = true

/-- Claim C10: `WinnerInv` holds initially (no winner, empty history) and is
preserved by every engine operation: `start_spin` (any draw), `tick`,
`stop_spin`, `reset_spin`, and any replacement of the participant list
(covering navigation and `remove_selected`, which touch only
`all_participants`). -/
theorem spin_winner_history_invariant :
    (∀ ps, WinnerInv (App.default ps)) ∧
    (∀ (a : App) (decay : ℚ), WinnerInv a → WinnerInv (a.start_spin decay)) ∧
    (∀ a : App, WinnerInv a → WinnerInv a.tick) ∧
    (∀ a : App, WinnerInv a → WinnerInv a.stop_spin) ∧
    (∀ a : App, WinnerInv a → WinnerInv a.reset_spin) ∧
    (∀ (a : App) (l : StatefulList Participant),
      WinnerInv a → WinnerInv { a with all_participants := l }) := by
  refine ⟨?_, ?_, ?_, ?_, ?_, ?_⟩
  · intro ps v hv
    simp [App.default] at hv
  · intro a decay h v hv
    unfold App.start_spin at hv ⊢
    by_cases hemp : a.all_participants.items.isEmpty
    · simp only [hemp, if_true] at hv ⊢
      exact h v hv
    · simp [hemp] at hv
  · intro a h v hv
    by_cases hspin : a.is_spinning
    · by_cases hfast : a.speed > 0.1
      · rw [App.tick_fast a hspin hfast] at hv ⊢
        simp [App.apply_acceleration] at hv ⊢
        exact h v hv
      · rcases hsel : a.all_participants.get_selected with _ | p0
        · rw [App.tick_finalize_none a hspin hfast hsel] at hv ⊢
          exact h v hv
        · rw [App.tick_finalize a p0 hspin hfast hsel] at hv ⊢
          simp at hv ⊢
          simp [← hv]
    · rw [App.tick_not_spinning a (by simpa using hspin)] at hv ⊢
      exact h v hv
  · intro a h v hv
    simp [App.stop_spin] at hv ⊢
    exact h v hv
  · intro a h v hv
    simp [App.reset_spin, App.stop_spin] at hv
  · intro a l h v hv
    simp at hv ⊢
    exact h v hv

/-- Witness for C10: the invariant holds for a fresh engine and is carried
through a `stop_spin`. -/
theorem spin_winner_history_invariant_witness :
    WinnerInv (App.default [pA]) ∧
    WinnerInv ((App.default [pA]).stop_spin) :=
  ⟨spin_winner_history_invariant.1 [pA],
   spin_winner_history_invariant.2.2.2.1 _
     (spin_winner_history_invariant.1 [pA])⟩

/-! ### Iterated ticks and spin termination (C3) -/

/-- Iterating `tick` never changes the decay constant. -/
theorem App.tick_iterate_acceleration (a : App) (j : Nat) :
    (App.tick^[j] a).acceleration = a.acceleration := by
  induction j with
  | zero => rfl
  | succ j ih => rw [Function.iterate_succ_apply', App.tick_acceleration, ih]

/-- Iterating `tick` never changes the participant items. -/
theorem App.tick_iterate_items (a : App) (j : Nat) :
    (App.tick^[j] a).all_participants.items = a.all_participants.items := by
  induction j with
  | zero => rfl
  | succ j ih => rw [Function.iterate_succ_apply', App.tick_items, ih]

/-- Along any run started by `start_spin` on a non-empty list, the decay
constant stays equal to the drawn value. -/
theorem start_spin_iterate_acceleration (a : App) (decay : ℚ) (j : Nat)
    (hne : a.all_participants.items ≠ []) :
    (App.tick^[j] (a.start_spin decay)).acceleration = decay := by
  have hemp : a.all_participants.items.isEmpty = false := by
    simp [List.isEmpty_iff, hne]
  rw [App.tick_iterate_acceleration]
  simp [App.start_spin, hemp]

/-- Along any run started by `start_spin`, the participant items stay the
original list. -/
theorem start_spin_iterate_items (a : App) (decay : ℚ) (j : Nat) :
    (App.tick^[j] (a.start_spin decay)).all_participants.items
      = a.all_participants.items := by
  rw [App.tick_iterate_items]
  unfold App.start_spin
  by_cases hemp : a.all_participants.items.isEmpty <;> simp [hemp]

/-- The coasting phase: as long as every earlier ideal speed `3·(1-decay)^i`
is above the threshold, the engine is still spinning after `j` ticks, its
speed is exactly `3·(1-decay)^j`, and (after at least one tick) a valid
index is selected. -/
theorem spin_phase (a : App) (decay : ℚ)
    (hne : a.all_participants.items ≠ []) :
    ∀ j, (∀ i < j, (0.1 : ℚ) < 3 * (1 - decay) ^ i) →
      (App.tick^[j] (a.start_spin decay)).is_spinning = true ∧
      (App.tick^[j] (a.start_spin decay)).speed = 3 * (1 - decay) ^ j ∧
      (1 ≤ j → ∃ i,
        (App.tick^[j] (a.start_spin decay)).all_participants.state.selected
            = some i ∧
          i < a.all_participants.items.length) := by
  have hemp : a.all_participants.items.isEmpty = false := by
    simp [List.isEmpty_iff, hne]
  intro j
  induction j with
  | zero =>
    intro _
    refine ⟨?_, ?_, ?_⟩ <;> norm_num [App.start_spin, hemp]
  | succ j ih =>
    intro h
    have hprev := ih fun i hi => h i (Nat.lt_succ_of_lt hi)
    have hfast : (App.tick^[j] (a.start_spin decay)).speed > 0.1 := by
      rw [hprev.2.1]
      exact h j (Nat.lt_succ_self j)
    have hacc := start_spin_iterate_acceleration a decay j hne
    have hitems := start_spin_iterate_items a decay j
    have hne' : (App.tick^[j] (a.start_spin decay)).all_participants.items ≠ [] := by
      rw [hitems]; exact hne
    rw [Function.iterate_succ_apply', App.tick_fast _ hprev.1 hfast]
    unfold App.apply_acceleration
    refine ⟨hprev.1, ?_, ?_⟩
    · show (App.tick^[j] (a.start_spin decay)).speed
          * (1.0 - (App.tick^[j] (a.start_spin decay)).acceleration)
        = 3 * (1 - decay) ^ (j + 1)
      rw [hprev.2.1, hacc]
      ring
    · intro _
      obtain ⟨i, hsel, hlt⟩ :=
        StatefulList.next_selects
          (App.tick^[j] (a.start_spin decay)).all_participants _ hne'
      exact ⟨i, hsel, by rwa [hitems] at hlt⟩

/-- Claim C3: starting from `start_spin` on a non-empty list of size `n`
(`speed = 3.0`, `decay ∈ [0.5/n, 0.9/n)`), repeated `tick`s strictly
decrease the speed while the engine spins above the threshold, and after
finitely many ticks the speed is at or below `0.1` while still spinning,
at which point the next tick finalizes a winner (`spin_winner` set) and
sets `is_spinning` to `false`. -/
theorem spin_terminates (a : App) (decay : ℚ)
    (hne : a.all_participants.items ≠ [])
    (hd : decay ∈ App.accelerationRange (a.all_participants.items.length : ℚ)) :
    (∀ j, (App.tick^[j] (a.start_spin decay)).is_spinning = true →
      (App.tick^[j] (a.start_spin decay)).speed > 0.1 →
      (App.tick^[j + 1] (a.start_spin decay)).speed
        < (App.tick^[j] (a.start_spin decay)).speed) ∧
    ∃ k, (App.tick^[k] (a.start_spin decay)).speed ≤ 0.1 ∧
      (App.tick^[k] (a.start_spin decay)).is_spinning = true ∧
      (App.tick^[k + 1] (a.start_spin decay)).is_spinning = false ∧
      ∃ w, (App.tick^[k + 1] (a.start_spin decay)).spin_winner = some w := by
  obtain ⟨hlo, hhi⟩ := hd
  have hlen : 0 < a.all_participants.items.length := List.length_pos.mpr hne
  have hn1 : (1 : ℚ) ≤ (a.all_participants.items.length : ℚ) := by
    exact_mod_cast hlen
  have hn0 : (0 : ℚ) < (a.all_participants.items.length : ℚ) := by linarith
  have hd0 : 0 < decay := lt_of_lt_of_le (by positivity) hlo
  have hd1 : decay < 1 := by
    have h9 : (0.9 : ℚ) / (a.all_participants.items.length : ℚ) ≤ 0.9 :=
      div_le_self (by norm_num) hn1
    linarith
  constructor
  · intro j hspin hfast
    have hacc := start_spin_iterate_acceleration a decay j hne
    rw [Function.iterate_succ_apply', App.tick_fast _ hspin hfast]
    unfold App.apply_acceleration
    show (App.tick^[j] (a.start_spin decay)).speed
        * (1.0 - (App.tick^[j] (a.start_spin decay)).acceleration)
      < (App.tick^[j] (a.start_spin decay)).speed
    rw [hacc]
    have hpos : (0 : ℚ) < (App.tick^[j] (a.start_spin decay)).speed := by
      have : (0.1 : ℚ) > 0 := by norm_num
      linarith
    exact mul_lt_of_lt_one_right hpos (by linarith)
  · obtain ⟨m, hm⟩ : ∃ m : ℕ, (1 - decay) ^ m < (1 : ℚ) / 30 :=
      exists_pow_lt_of_lt_one (by norm_num) (by linarith)
    have hP : ∃ j, 3 * (1 - decay) ^ j ≤ (0.1 : ℚ) := by
      refine ⟨m, ?_⟩
      have h3 : 3 * (1 - decay) ^ m < 3 * ((1 : ℚ) / 30) := by
        have := (mul_lt_mul_left (show (0 : ℚ) < 3 by norm_num)).mpr hm
        simpa using this
      have : (3 : ℚ) * (1 / 30) = 0.1 := by norm_num
      linarith
    classical
    have hK := Nat.find_spec hP
    have hmin : ∀ i < Nat.find hP, (0.1 : ℚ) < 3 * (1 - decay) ^ i :=
      fun i hi => lt_of_not_le (Nat.find_min hP hi)
    have hphase := spin_phase a decay hne (Nat.find hP) hmin
    have hK1 : 1 ≤ Nat.find hP := by
      rcases Nat.eq_zero_or_pos (Nat.find hP) with h0 | h1
      · rw [h0] at hK
        norm_num at hK
      · exact h1
    obtain ⟨i, hsel, hlt⟩ := hphase.2.2 hK1
    have hitems := start_spin_iterate_items a decay (Nat.find hP)
    have hlt' : i < (App.tick^[Nat.find hP]
        (a.start_spin decay)).all_participants.items.length := by
      rw [hitems]; exact hlt
    have hget : (App.tick^[Nat.find hP]
          (a.start_spin decay)).all_participants.get_selected
        = some ((App.tick^[Nat.find hP]
            (a.start_spin decay)).all_participants.items.get ⟨i, hlt'⟩) := by
      simp [StatefulList.get_selected, hsel, List.get?_eq_get hlt']
    have hspeed : (App.tick^[Nat.find hP] (a.start_spin decay)).speed ≤ 0.1 := by
      rw [hphase.2.1]; exact hK
    have hslow : ¬(App.tick^[Nat.find hP] (a.start_spin decay)).speed > 0.1 :=
      not_lt.mpr hspeed
    have hstep := App.tick_finalize _ _ hphase.1 hslow hget
    refine ⟨Nat.find hP, hspeed, hphase.1, ?_, ?_⟩
    · rw [Function.iterate_succ_apply', hstep]
    · rw [Function.iterate_succ_apply', hstep]
      exact ⟨_, rfl⟩

/-- Witness for C3: a single-participant raffle spun with `decay = 0.6`
(inside `[0.5/1, 0.9/1)`) reaches the threshold and finalizes a winner. -/
theorem spin_terminates_witness :
    ∃ k, (App.tick^[k] ((App.default [pA]).start_spin 0.6)).speed ≤ 0.1 ∧
      (App.tick^[k] ((App.default [pA]).start_spin 0.6)).is_spinning = true ∧
      (App.tick^[k + 1] ((App.default [pA]).start_spin 0.6)).is_spinning
        = false ∧
      ∃ w, (App.tick^[k + 1] ((App.default [pA]).start_spin 0.6)).spin_winner
        = some w :=
  (spin_terminates (App.default [pA]) 0.6
    (by simp [App.default, StatefulList.new])
    (by norm_num [App.accelerationRange, Set.mem_Ico, App.default,
      StatefulList.new])).2
